import Mathlib

/-!
Verification of the tiny_cc compiler (a TINY-language to abstract-machine
compiler written in Rust) against its natural-language specification.

The development shallowly embeds the Rust sources:
  src/token.rs       -> TokenType, Token, lookUpKeywords
  src/lexer.rs       -> Lexer, removeComment, peekChar, nextChar, consumeSpaces,
                        readIdentifierF, readNumberF, readStringF, nextToken
  src/parser.rs      -> Parser, nextTokenP, parseExpression, parse...Statement,
                        parseProgramF
  src/environment.rs -> lookUp, insertSym (SymbolTable as an insertion-ordered
                        association list; the Rust HashMap is observed only
                        through contains_key / get / len, which the list models)
  src/code.rs        -> OpCode, opStr, register codes AC AC1 GP MP PC
  src/compiler.rs    -> Compiler, emitCode, emitRm, emitR0, emitSkip,
                        emitBackup, emitRestore, emitRmAbs, compileExpr,
                        compileStmt, compileBlock, compileProgram

Machine integers: Rust usize arithmetic and the i32-to-usize casts are modelled
on Nat/Int with an explicit modulus 2^64 (i32ToUsize).  Rust panics become
Except.error.  The scanner loops, which Rust writes as unbounded loops that
advance a cursor, are written with an explicit fuel parameter; the fuel bound
input.length + 1 dominates every terminating run of the Rust loop, and the
lemmas below either hold for every fuel or are evaluated on concrete input.
-/

set_option linter.unusedVariables false
set_option maxRecDepth 100000
set_option maxHeartbeats 1000000

namespace TinyCC

/-! ## Machine-integer helpers -/

/-- 2^64, the usize modulus. -/
def U64 : Nat := 2 ^ 64

/-- Rust cast i32 -> usize: sign extension, i.e. the value modulo 2^64.
For example (-1i32) as usize = 18446744073709551615. -/
def i32ToUsize (i : Int) : Nat := (i % ((2 : Int) ^ 64)).toNat

/-- Rust format specifier pad-left-to-width (as in the emitters of
src/compiler.rs).  Strings wider than the field are kept whole. -/
def padLeft (s : String) (w : Nat) : String :=
  String.mk (List.replicate (w - s.length) ' ') ++ s

/-! ## src/token.rs -/

inductive TokenType where
  | eof
  | illegal
  | ident
  | number
  | stringLit
  | readKw
  | ifKw
  | thenKw
  | repeatKw
  | untilKw
  | writeKw
  | endKw
  | lessThan
  | assign
  | equalLessThan
  | equal
  | add
  | minus
  | mul
  | divide
  | semiColon
deriving DecidableEq

structure Token where
  tokenType : TokenType
  literal : String
deriving DecidableEq

/-- token.rs look_up_keywords. -/
def lookUpKeywords (ident : String) : TokenType :=
  if ident = "read" then .readKw
  else if ident = "if" then .ifKw
  else if ident = "then" then .thenKw
  else if ident = "repeat" then .repeatKw
  else if ident = "until" then .untilKw
  else if ident = "write" then .writeKw
  else if ident = "end" then .endKw
  else .ident

/-! ## src/lexer.rs -/

structure Lexer where
  input : List Char
  pos : Int
deriving DecidableEq

/-- lexer.rs remove_comment: drop brace-delimited comments
(brace characters written via their codes 123 and 125). -/
def removeComment : List Char → Bool → List Char
  | [], _ => []
  | c :: rest, inComment =>
    if c = Char.ofNat 123 then removeComment rest true
    else if c = Char.ofNat 125 then removeComment rest false
    else if inComment then removeComment rest inComment
    else c :: removeComment rest inComment

/-- Lexer::new. -/
def lexerNew (input : String) : Lexer :=
  { input := removeComment input.data false, pos := -1 }

/-- lexer.rs peek_char.  The Rust code compares (pos as usize) with
input.len() - 1 in usize arithmetic (so for the empty input the wrapped
length-minus-one equals the cast of pos = -1), and otherwise indexes at
(pos + 1) as usize; that index is in bounds in every state reachable from
Lexer::new, where Rust would panic we return the NUL default. -/
def peekChar (l : Lexer) : Char :=
  if i32ToUsize l.pos = (l.input.length + U64 - 1) % U64 then Char.ofNat 0
  else l.input.getD (i32ToUsize (l.pos + 1)) (Char.ofNat 0)

/-- lexer.rs next_char. -/
def nextChar (l : Lexer) : Char × Lexer :=
  let next := peekChar l
  if next ≠ Char.ofNat 0 then (next, { l with pos := l.pos + 1 }) else (next, l)

/-- lexer.rs consume_spaces, with fuel bounding the loop. -/
def consumeSpaces : Nat → Lexer → Lexer
  | 0, l => l
  | fuel + 1, l =>
    let ch := peekChar l
    if ch ≠ '\n' ∧ ch ≠ '\r' ∧ ch ≠ '\t' ∧ ch ≠ ' ' then l
    else consumeSpaces fuel (nextChar l).2

/-- Rust is_letter: ASCII letters only. -/
def isLetter (ch : Char) : Bool :=
  (decide ('a' ≤ ch) && decide (ch ≤ 'z')) || (decide ('A' ≤ ch) && decide (ch ≤ 'Z'))

/-- Rust is_digit: ASCII digits only. -/
def isDigit (ch : Char) : Bool :=
  decide ('0' ≤ ch) && decide (ch ≤ '9')

/-- Loop of lexer.rs read_identifier. -/
def readIdentLoop : Nat → Lexer → String → String × Lexer
  | 0, l, acc => (acc, l)
  | fuel + 1, l, acc =>
    let ch := peekChar l
    if isLetter ch then readIdentLoop fuel (nextChar l).2 (acc.push ch)
    else (acc, l)

/-- lexer.rs read_identifier: steps pos back one, then collects a maximal
letter run. -/
def readIdentifierF (fuel : Nat) (l : Lexer) : String × Lexer :=
  readIdentLoop fuel { l with pos := l.pos - 1 } ""

/-- Loop of lexer.rs read_number. -/
def readNumberLoop : Nat → Lexer → String → String × Lexer
  | 0, l, acc => (acc, l)
  | fuel + 1, l, acc =>
    let ch := peekChar l
    if isDigit ch then readNumberLoop fuel (nextChar l).2 (acc.push ch)
    else (acc, l)

/-- lexer.rs read_number. -/
def readNumberF (fuel : Nat) (l : Lexer) : String × Lexer :=
  readNumberLoop fuel { l with pos := l.pos - 1 } ""

/-- lexer.rs read_string: consume until a closing double quote.  (On input
with no closing quote the Rust loop never terminates; the fuel version
stops with what it has.) -/
def readStringF : Nat → Lexer → String → String × Lexer
  | 0, l, acc => (acc, l)
  | fuel + 1, l, acc =>
    let r := nextChar l
    if r.1 = '\"' then (acc, r.2)
    else readStringF fuel r.2 (acc.push r.1)

/-- The match of lexer.rs next_token on the consumed character, written as
the same first-match chain of character cases. -/
def tokenDispatch (fuel : Nat) (ch : Char) (l : Lexer) : Token × Lexer :=
  if ch = ';' then (Token.mk .semiColon ";", l)
  else if ch = '<' then
    (if peekChar l = '=' then (Token.mk .equalLessThan "<=", (nextChar l).2)
     else (Token.mk .lessThan "<", l))
  else if ch = '=' then (Token.mk .equal "=", l)
  else if ch = ':' then (Token.mk .assign ":=", (nextChar l).2)
  else if ch = '*' then (Token.mk .mul "*", l)
  else if ch = '-' then (Token.mk .minus "-", l)
  else if ch = '+' then (Token.mk .add "+", l)
  else if ch = '/' then (Token.mk .divide "/", l)
  else if ch = '\"' then
    (let r := readStringF fuel l ""
     (Token.mk .stringLit r.1, r.2))
  else if ch = Char.ofNat 0 then (Token.mk .eof "", l)
  else if isLetter ch then
    (let r := readIdentifierF fuel l
     (Token.mk (lookUpKeywords r.1) r.1, r.2))
  else if isDigit ch then
    (let r := readNumberF fuel l
     (Token.mk .number r.1, r.2))
  else (Token.mk .illegal "", l)

/-- lexer.rs next_token with explicit fuel for the inner loops. -/
def nextTokenF (fuel : Nat) (l : Lexer) : Token × Lexer :=
  let l1 := consumeSpaces fuel l
  let r := nextChar l1
  tokenDispatch fuel r.1 r.2

/-- Lexer::next_token.  The fuel input.length + 1 bounds every character
consumed by one token scan. -/
def nextToken (l : Lexer) : Token × Lexer :=
  nextTokenF (l.input.length + 1) l

/-! ## src/ast.rs: expressions and statements.

The Rust syntax tree is a closed trait-object hierarchy; Expression is
implemented exactly by InfixExpression, Identifier and Number, and
Statement by Assign/Read/Write/If/Repeat (Program and BlockStatement both
hold a Vec of statements, modelled by Block). -/

inductive Expr where
  | infixExpr (op : Token) (left : Expr) (right : Expr)
  | identExpr (value : String)
  | number (value : Int)
deriving DecidableEq

mutual
inductive Stmt where
  | assignStmt (name : String) (value : Expr)
  | readStmt (name : String)
  | writeStmt (name : String)
  | ifStmt (cond : Expr) (consequence : Block)
  | repeatStmt (cond : Expr) (consequence : Block)
deriving DecidableEq
inductive Block where
  | nil
  | cons (head : Stmt) (tail : Block)
deriving DecidableEq
end

/-! ## src/parser.rs -/

structure Parser where
  lexer : Lexer
  peek : Token
deriving DecidableEq

/-- Parser::new. -/
def parserNew (input : String) : Parser :=
  let l := lexerNew input
  let r := nextToken l
  { lexer := r.2, peek := r.1 }

/-- Parser::next_token: return the buffered peek, refill from the lexer. -/
def nextTokenP (p : Parser) : Token × Parser :=
  let r := nextToken p.lexer
  (p.peek, { lexer := r.2, peek := r.1 })

/-- Rust str::parse::<i32>().unwrap() on the number literal: digits only,
bounded by i32::MAX; anything else is a panic (here an error). -/
def parseI32 (s : String) : Except String Int :=
  if s.length ≠ 0 ∧ s.data.all (fun c => isDigit c) then
    (let n := s.data.foldl (fun a c => a * 10 + (c.toNat - 48)) 0
     if n ≤ 2147483647 then .ok (Int.ofNat n) else .error "number does not fit in i32")
  else .error "invalid number literal"

/-- parser.rs parse_ident. -/
def parseIdent (p : Parser) : Expr × Parser :=
  let r := nextTokenP p
  (.identExpr r.1.literal, r.2)

/-- parser.rs parse_number. -/
def parseNumber (p : Parser) : Except String (Expr × Parser) :=
  let r := nextTokenP p
  match parseI32 r.1.literal with
  | .error e => .error e
  | .ok v => .ok (.number v, r.2)

/-- parser.rs parse_prefix_expression. -/
def parsePrefixExpression (p : Parser) : Except String (Expr × Parser) :=
  match p.peek.tokenType with
  | .ident => .ok (parseIdent p)
  | .number => parseNumber p
  | _ => .error "token type is not prefix expression"

/-- parser.rs parse_expression: one primary, then (unless the next token is
the semicolon or then) exactly one operator token and one more primary. -/
def parseExpression (p : Parser) : Except String (Expr × Parser) :=
  match parsePrefixExpression p with
  | .error e => .error e
  | .ok (left, p1) =>
    if p1.peek.tokenType ≠ .semiColon ∧ p1.peek.tokenType ≠ .thenKw then
      (let r := nextTokenP p1
       match parsePrefixExpression r.2 with
       | .error e => .error e
       | .ok (right, p2) => .ok (.infixExpr r.1 left right, p2))
    else .ok (left, p1)

/-- parser.rs parse_assign_statement: the := is checked (panic on mismatch),
the terminating semicolon is consumed without a check. -/
def parseAssignStatement (p : Parser) : Except String (Stmt × Parser) :=
  let r1 := nextTokenP p
  if r1.2.peek.tokenType = .assign then
    (let r2 := nextTokenP r1.2
     match parseExpression r2.2 with
     | .error e => .error e
     | .ok (rightExp, p1) =>
       let r3 := nextTokenP p1
       .ok (.assignStmt r1.1.literal rightExp, r3.2))
  else .error "expected TokenType Assign"

/-- parser.rs parse_read_statement: consumes read, then whatever token is
next as the identifier, then whatever token is next as the semicolon; no
check ever fails, so this total function returns a plain pair. -/
def parseReadStatement (p : Parser) : Stmt × Parser :=
  let r1 := nextTokenP p
  let r2 := nextTokenP r1.2
  let r3 := nextTokenP r2.2
  (.readStmt r2.1.literal, r3.2)

/-- parser.rs parse_write_statement (same unchecked shape as read). -/
def parseWriteStatement (p : Parser) : Stmt × Parser :=
  let r1 := nextTokenP p
  let r2 := nextTokenP r1.2
  let r3 := nextTokenP r2.2
  (.writeStmt r2.1.literal, r3.2)

mutual
/-- parser.rs parse_statement. -/
def parseStatementF : Nat → Parser → Except String (Stmt × Parser)
  | 0, _ => .error "parse fuel exhausted"
  | fuel + 1, p =>
    match p.peek.tokenType with
    | .ident => parseAssignStatement p
    | .ifKw => parseIfStatementF fuel p
    | .repeatKw => parseRepeatStatementF fuel p
    | .readKw => .ok (parseReadStatement p)
    | .writeKw => .ok (parseWriteStatement p)
    | _ => .error "the token type represents no statement"

/-- parser.rs parse_if_statement: then is checked, end is consumed without
a check. -/
def parseIfStatementF : Nat → Parser → Except String (Stmt × Parser)
  | 0, _ => .error "parse fuel exhausted"
  | fuel + 1, p =>
    let r := nextTokenP p
    match parseExpression r.2 with
    | .error e => .error e
    | .ok (cond, p1) =>
      if p1.peek.tokenType = .thenKw then
        (let r2 := nextTokenP p1
         match parseBlockStatementF fuel r2.2 with
         | .error e => .error e
         | .ok (conseq, p2) =>
           let r3 := nextTokenP p2
           .ok (.ifStmt cond conseq, r3.2))
      else .error "expected TokenType Then"

/-- parser.rs parse_repeat_statement: until and the terminating semicolon
are consumed without a check. -/
def parseRepeatStatementF : Nat → Parser → Except String (Stmt × Parser)
  | 0, _ => .error "parse fuel exhausted"
  | fuel + 1, p =>
    let r := nextTokenP p
    match parseBlockStatementF fuel r.2 with
    | .error e => .error e
    | .ok (conseq, p1) =>
      let r2 := nextTokenP p1
      match parseExpression r2.2 with
      | .error e => .error e
      | .ok (cond, p2) =>
        let r3 := nextTokenP p2
        .ok (.repeatStmt cond conseq, r3.2)

/-- parser.rs parse_block_statement: statements until end or until, neither
consumed. -/
def parseBlockStatementF : Nat → Parser → Except String (Block × Parser)
  | 0, _ => .error "parse fuel exhausted"
  | fuel + 1, p =>
    if p.peek.tokenType ≠ .endKw ∧ p.peek.tokenType ≠ .untilKw then
      (match parseStatementF fuel p with
       | .error e => .error e
       | .ok (st, p1) =>
         match parseBlockStatementF fuel p1 with
         | .error e => .error e
         | .ok (rest, p2) => .ok (.cons st rest, p2))
    else .ok (.nil, p)
end

/-- parser.rs parse_program: statements until end of input. -/
def parseProgramF : Nat → Parser → Except String (Block × Parser)
  | 0, _ => .error "parse fuel exhausted"
  | fuel + 1, p =>
    if p.peek.tokenType ≠ .eof then
      (match parseStatementF fuel p with
       | .error e => .error e
       | .ok (st, p1) =>
         match parseProgramF fuel p1 with
         | .error e => .error e
         | .ok (rest, p2) => .ok (.cons st rest, p2))
    else .ok (.nil, p)

/-- Whole pipeline on a source string; the fuel length + 1 dominates the
statement count and nesting depth of any parse of that string. -/
def parseProgramStr (src : String) : Except String Block :=
  match parseProgramF (src.length + 1) (parserNew src) with
  | .error e => .error e
  | .ok r => .ok r.1

/-! ## src/environment.rs: the symbol table.

Rust uses a HashMap<String, i32> observed only through contains_key,
get and len; an insertion-ordered association list models it exactly. -/

def containsKey : List (String × Int) → String → Bool
  | [], _ => false
  | e :: rest, n => if e.1 = n then true else containsKey rest n

/-- SymbolTable::look_up: the stored offset, or -1 when absent. -/
def lookUp : List (String × Int) → String → Int
  | [], _ => -1
  | e :: rest, n => if e.1 = n then e.2 else lookUp rest n

/-- SymbolTable::insert: -1 when the name is present, else bind it to the
current size and return that offset. -/
def insertSym (t : List (String × Int)) (name : String) : List (String × Int) × Int :=
  if containsKey t name then (t, -1)
  else (t ++ [(name, (t.length : Int))], (t.length : Int))

/-- A sequence of symbol-table operations (look_up takes &self and never
mutates; insert mutates). -/
inductive SymOp where
  | look (name : String)
  | ins (name : String)

def runOps : List SymOp → List (String × Int) → List (String × Int)
  | [], t => t
  | .look _ :: rest, t => runOps rest t
  | .ins n :: rest, t => runOps rest (insertSym t n).1

/-! ## src/code.rs -/

inductive OpCode where
  | LDC | LD | LDA | ST | IN | OUT
  | ADD | SUB | MUL | DIV
  | JLT | JEQ
deriving DecidableEq

/-- Display for OpCode. -/
def opStr : OpCode → String
  | .LDC => "LDC"
  | .LD => "LD"
  | .LDA => "LDA"
  | .ST => "ST"
  | .IN => "IN"
  | .OUT => "OUT"
  | .ADD => "ADD"
  | .SUB => "SUB"
  | .MUL => "MUL"
  | .DIV => "DIV"
  | .JLT => "JLT"
  | .JEQ => "JEQ"

/-- Register codes (code.rs RegisterCode as usize). -/
def AC : Nat := 0
def AC1 : Nat := 1
def GP : Nat := 5
def MP : Nat := 6
def PC : Nat := 7

/-! ## src/compiler.rs -/

/-- Compiler state.  The Rust struct also holds a RegisterGroup, an empty
struct with no behaviour, omitted here. -/
structure Compiler where
  intermedia : List String
  symbolTable : List (String × Int)
  tmpOffset : Int
  emitLoc : Nat
deriving DecidableEq

/-- Compiler::new. -/
def compilerNew : Compiler :=
  { intermedia := [], symbolTable := [], tmpOffset := 0, emitLoc := 0 }

/-- The cursor invariant of normal forward emission: the emit location sits
at the end of the buffer. -/
def inv (c : Compiler) : Prop := c.emitLoc = c.intermedia.length

/-- The line text built by emit_rm: address right-padded to 3, colon, two
spaces, opcode right-padded to 5, two spaces, target,offset(base). -/
def fmtRm (addr : Nat) (op : OpCode) (target offset base : Nat) : String :=
  padLeft (Nat.repr addr) 3 ++ ":  " ++ padLeft (opStr op) 5 ++ "  " ++
    Nat.repr target ++ "," ++ Nat.repr offset ++ "(" ++ Nat.repr base ++ ")"

/-- The line text built by emit_r0: same as emit_rm but operands
target,first,second. -/
def fmtR0 (addr : Nat) (op : OpCode) (target first second : Nat) : String :=
  padLeft (Nat.repr addr) 3 ++ ":  " ++ padLeft (opStr op) 5 ++ "  " ++
    Nat.repr target ++ "," ++ Nat.repr first ++ "," ++ Nat.repr second

/-- The line text built by emit_rm_abs: note the single space between the
opcode field and the operands (the Rust format string has one space where
emit_rm and emit_r0 have two); the base register is always PC. -/
def fmtRmAbs (addr : Nat) (op : OpCode) (target offset : Nat) : String :=
  padLeft (Nat.repr addr) 3 ++ ":  " ++ padLeft (opStr op) 5 ++ " " ++
    Nat.repr target ++ "," ++ Nat.repr offset ++ "(" ++ Nat.repr PC ++ ")"

/-- compiler.rs emit_code: append when the cursor is at the end, overwrite
the slot at the cursor otherwise; either way advance the cursor. -/
def emitCode (code : String) (s : Compiler) : Compiler :=
  if s.emitLoc = s.intermedia.length then
    { s with intermedia := s.intermedia ++ [code], emitLoc := s.emitLoc + 1 }
  else
    { s with intermedia := s.intermedia.set s.emitLoc code, emitLoc := s.emitLoc + 1 }

/-- compiler.rs emit_rm; the printed address is the buffer length. -/
def emitRm (op : OpCode) (target offset base : Nat) (s : Compiler) : Compiler :=
  emitCode (fmtRm s.intermedia.length op target offset base) s

/-- compiler.rs emit_r0; the printed address is the buffer length. -/
def emitR0 (op : OpCode) (target first second : Nat) (s : Compiler) : Compiler :=
  emitCode (fmtR0 s.intermedia.length op target first second) s

/-- compiler.rs emit_skip: reserve skip empty slots, return the address
before them. -/
def emitSkip (skip : Nat) (s : Compiler) : Nat × Compiler :=
  (s.intermedia.length,
   { s with intermedia := s.intermedia ++ List.replicate skip "",
            emitLoc := s.emitLoc + skip })

/-- compiler.rs emit_backup: rewind the cursor. -/
def emitBackup (loc : Nat) (s : Compiler) : Compiler := { s with emitLoc := loc }

/-- compiler.rs emit_restore: cursor back to the end of the buffer. -/
def emitRestore (s : Compiler) : Compiler := { s with emitLoc := s.intermedia.length }

/-- compiler.rs emit_rm_abs: the printed address is the cursor, the offset
is absolute - (cursor + 1) (usize subtraction; at every call site in
compile the absolute address is beyond the cursor, so the Nat truncation
never differs from Rust, where an underflow would abort). -/
def emitRmAbs (op : OpCode) (target absolute : Nat) (s : Compiler) : Compiler :=
  emitCode (fmtRmAbs s.emitLoc op target (absolute - (s.emitLoc + 1))) s

/-- The backpatch tail of the IfStatement arm of Compiler::compile
(compiler.rs lines 72-80): reserve the second slot, record the end-of-buffer
address, rewind to each reserved slot in turn, write the PC-relative jump,
and restore the cursor to the end after each patch. -/
def backpatchIf (afterCond : Nat) (s2 : Compiler) : Compiler :=
  let skB := emitSkip 1 s2
  let skC := emitSkip 0 skB.2
  let sD := emitRmAbs .JEQ AC skC.1 (emitBackup afterCond skC.2)
  let sE := emitRestore sD
  let skF := emitSkip 0 sE
  let sG := emitRmAbs .LDA PC skF.1 (emitBackup skB.1 skF.2)
  emitRestore sG

/-- Does the compiler have a translation for this infix operator?  Exactly
the six arms of the InfixExpression match in compiler.rs. -/
def isInfixOp : TokenType → Bool
  | .add => true
  | .minus => true
  | .mul => true
  | .divide => true
  | .lessThan => true
  | .equal => true
  | _ => false

/-- The state after the spill of the left operand of an infix expression:
emit ST of AC at the current scratch offset under MP, then decrement the
scratch offset (compiler.rs lines 86-87). -/
def spillLeft (s1 : Compiler) : Compiler :=
  { emitRm .ST AC (i32ToUsize s1.tmpOffset) MP s1 with tmpOffset := s1.tmpOffset - 1 }

/-- The state after the right operand of an infix expression: restore the
scratch offset, then emit LD of AC1 from it (compiler.rs lines 89-90). -/
def reloadLeft (s4 : Compiler) : Compiler :=
  emitRm .LD AC1 (i32ToUsize (s4.tmpOffset + 1)) MP { s4 with tmpOffset := s4.tmpOffset + 1 }

/-- The six operator arms of the InfixExpression match in compiler.rs
(the catch-all arm there panics; compileExpr guards it with isInfixOp, so
the default arm here is never reached on a supported operator). -/
def opFinish (t : TokenType) (s6 : Compiler) : Compiler :=
  match t with
  | .add => emitR0 .ADD AC AC1 AC s6
  | .minus => emitR0 .SUB AC AC1 AC s6
  | .mul => emitR0 .MUL AC AC1 AC s6
  | .divide => emitR0 .DIV AC AC1 AC s6
  | .lessThan =>
    emitRm .LDC AC 1 AC (emitRm .LDA PC 1 PC (emitRm .LDC AC 0 AC
      (emitRm .JLT AC 2 PC (emitR0 .SUB AC AC1 AC s6))))
  | .equal =>
    emitRm .LDC AC 1 AC (emitRm .LDA PC 1 PC (emitRm .LDC AC 0 AC
      (emitRm .JEQ AC 2 PC (emitR0 .SUB AC AC1 AC s6))))
  | _ => s6

/-- Compiler::compile on expression nodes (NodeType::InfixExpression,
Identifier and Number arms).  The Identifier arm looks the name up without
inserting and casts the result (possibly -1) to usize. -/
def compileExpr : Expr → Compiler → Except String Compiler
  | .number v, s => .ok (emitRm .LDC AC (i32ToUsize v) 0 s)
  | .identExpr name, s =>
    .ok (emitRm .LD AC (i32ToUsize (lookUp s.symbolTable name)) GP s)
  | .infixExpr op left right, s =>
    match compileExpr left s with
    | .error e => .error e
    | .ok s1 =>
      match compileExpr right (spillLeft s1) with
      | .error e => .error e
      | .ok s4 =>
        if isInfixOp op.tokenType then .ok (opFinish op.tokenType (reloadLeft s4))
        else .error "token type is not infix operator"

mutual
/-- Compiler::compile on statement nodes.  The RepeatStatement falls to the
catch-all arm of the Rust match, which does nothing. -/
def compileStmt : Stmt → Compiler → Except String Compiler
  | .readStmt name, s =>
    let s1 := emitR0 .IN AC 0 0 s
    let loc := lookUp s1.symbolTable name
    let r := if loc = -1 then insertSym s1.symbolTable name else (s1.symbolTable, loc)
    .ok (emitRm .ST AC (i32ToUsize r.2) GP { s1 with symbolTable := r.1 })
  | .writeStmt name, s =>
    (match compileExpr (.identExpr name) s with
     | .error e => .error e
     | .ok s1 => .ok (emitR0 .OUT AC 0 0 s1))
  | .assignStmt name value, s =>
    (match compileExpr value s with
     | .error e => .error e
     | .ok s1 =>
       let loc := lookUp s1.symbolTable name
       let r := if loc = -1 then insertSym s1.symbolTable name else (s1.symbolTable, loc)
       .ok (emitRm .ST AC (i32ToUsize r.2) GP { s1 with symbolTable := r.1 }))
  | .ifStmt cond conseq, s =>
    (match compileExpr cond s with
     | .error e => .error e
     | .ok s1 =>
       match compileBlock conseq (emitSkip 1 s1).2 with
       | .error e => .error e
       | .ok s2 => .ok (backpatchIf (emitSkip 1 s1).1 s2))
  | .repeatStmt _ _, s => .ok s

/-- Compiler::compile on NodeType::BlockStatement: each statement in order. -/
def compileBlock : Block → Compiler → Except String Compiler
  | .nil, s => .ok s
  | .cons st rest, s =>
    (match compileStmt st s with
     | .error e => .error e
     | .ok s1 => compileBlock rest s1)
end

/-- Compiler::compile on NodeType::Program: identical iteration to the
BlockStatement arm. -/
def compileProgram (program : Block) (s : Compiler) : Except String Compiler :=
  compileBlock program s

/-! ## Tree shapes: what the listing length may depend on.

A shape erases identifier names and literal values but keeps the operator
token kind of every infix node. -/

inductive ExprShape where
  | numS
  | identS
  | infixS (op : TokenType) (left right : ExprShape)
deriving DecidableEq

mutual
inductive StmtShape where
  | assignS (value : ExprShape)
  | readS
  | writeS
  | ifS (cond : ExprShape) (consequence : BlockShape)
  | repeatS (cond : ExprShape) (consequence : BlockShape)
deriving DecidableEq
inductive BlockShape where
  | nil
  | cons (head : StmtShape) (tail : BlockShape)
deriving DecidableEq
end

def shapeExpr : Expr → ExprShape
  | .number _ => .numS
  | .identExpr _ => .identS
  | .infixExpr op l r => .infixS op.tokenType (shapeExpr l) (shapeExpr r)

mutual
def shapeStmt : Stmt → StmtShape
  | .assignStmt _ v => .assignS (shapeExpr v)
  | .readStmt _ => .readS
  | .writeStmt _ => .writeS
  | .ifStmt c b => .ifS (shapeExpr c) (shapeBlock b)
  | .repeatStmt c b => .repeatS (shapeExpr c) (shapeBlock b)
def shapeBlock : Block → BlockShape
  | .nil => .nil
  | .cons st rest => .cons (shapeStmt st) (shapeBlock rest)
end

/-- Lines emitted for one infix operator: the relational ones synthesize a
boolean with five instructions, the arithmetic ones take one. -/
def opEmitCount (t : TokenType) : Nat :=
  match t with
  | .lessThan => 5
  | .equal => 5
  | _ => 1

def countExprShape : ExprShape → Nat
  | .numS => 1
  | .identS => 1
  | .infixS op l r => countExprShape l + 1 + countExprShape r + 1 + opEmitCount op

mutual
def countStmtShape : StmtShape → Nat
  | .assignS v => countExprShape v + 1
  | .readS => 2
  | .writeS => 2
  | .ifS c b => countExprShape c + 1 + countBlockShape b + 1
  | .repeatS _ _ => 0
def countBlockShape : BlockShape → Nat
  | .nil => 0
  | .cons st rest => countStmtShape st + countBlockShape rest
end

/-- Does every infix node the code generator will reach carry one of the
six supported operator tokens?  compile aborts exactly otherwise.  A
repeat statement is skipped whole by the catch-all arm, so nothing under
it is ever reached. -/
def okExprShape : ExprShape → Bool
  | .numS => true
  | .identS => true
  | .infixS op l r => okExprShape l && okExprShape r && isInfixOp op

mutual
def okStmtShape : StmtShape → Bool
  | .assignS v => okExprShape v
  | .readS => true
  | .writeS => true
  | .ifS c b => okExprShape c && okBlockShape b
  | .repeatS _ _ => true
def okBlockShape : BlockShape → Bool
  | .nil => true
  | .cons st rest => okStmtShape st && okBlockShape rest
end

/-! ## The line form claimed by the specification, and jump resolution. -/

/-- The line form stated in the specification (section 6): right-aligned
3-wide address, colon, two spaces, right-aligned 5-wide opcode, two
spaces, operand list.  Built from the words of the spec, to be compared
with the formats the code actually uses. -/
def specLineFormat (addr : Nat) (opcode : String) (operands : String) : String :=
  padLeft (Nat.repr addr) 3 ++ ":  " ++ padLeft opcode 5 ++ "  " ++ operands

/-- Where a PC-relative jump written at address slot with the given offset
lands: the machine increments PC past the instruction and adds the offset. -/
def resolvedTarget (slot offset : Nat) : Nat := slot + 1 + offset

/-! ## Concrete pipeline runs used by the scenario claims. -/

/-- Scenario source: if 0 < x then y := 1; end. -/
def demoSrc : String := "if 0 < x then y := 1; end"

/-- The tree the parser produces for demoSrc. -/
def demoParsed : Block :=
  .cons
    (.ifStmt
      (.infixExpr (Token.mk .lessThan "<") (.number 0) (.identExpr "x"))
      (.cons (.assignStmt "y" (.number 1)) .nil))
    .nil

/-- The compiler state after compiling demoParsed from a fresh compiler:
13 lines, x never inserted (looked up as -1), y at offset 0, the first
reserved slot backpatched with JEQ 0,3(7) at address 9 and the second
 with LDA 7,0(7) at address 12. -/
def demoCompiled : Compiler :=
  { intermedia :=
      [fmtRm 0 .LDC 0 0 0,
       fmtRm 1 .ST 0 0 6,
       fmtRm 2 .LD 0 18446744073709551615 5,
       fmtRm 3 .LD 1 0 6,
       fmtR0 4 .SUB 0 1 0,
       fmtRm 5 .JLT 0 2 7,
       fmtRm 6 .LDC 0 0 0,
       fmtRm 7 .LDA 7 1 7,
       fmtRm 8 .LDC 0 1 0,
       fmtRmAbs 9 .JEQ 0 3,
       fmtRm 10 .LDC 0 1 0,
       fmtRm 11 .ST 0 0 5,
       fmtRmAbs 12 .LDA 7 0],
    symbolTable := [("y", 0)],
    tmpOffset := 0,
    emitLoc := 13 }

/-! # Theorems

First a stock of small facts about the emitters and the compile pipeline,
then the claims. -/

/-! ## The emitters -/

theorem emitCode_symbolTable (c : String) (s : Compiler) :
    (emitCode c s).symbolTable = s.symbolTable := by
  unfold emitCode; split <;> rfl

theorem emitCode_tmpOffset (c : String) (s : Compiler) :
    (emitCode c s).tmpOffset = s.tmpOffset := by
  unfold emitCode; split <;> rfl

theorem emitCode_emitLoc (c : String) (s : Compiler) :
    (emitCode c s).emitLoc = s.emitLoc + 1 := by
  unfold emitCode; split <;> rfl

/-- Under the cursor invariant, emit_code appends. -/
theorem emitCode_ofInv (c : String) (s : Compiler) (h : inv s) :
    emitCode c s =
      ⟨s.intermedia ++ [c], s.symbolTable, s.tmpOffset, s.intermedia.length + 1⟩ := by
  cases s with
  | mk buf tab tmp loc =>
    unfold inv at h
    dsimp at h
    subst h
    simp [emitCode]

theorem emitRm_ofInv (op : OpCode) (t o b : Nat) (s : Compiler) (h : inv s) :
    emitRm op t o b s =
      ⟨s.intermedia ++ [fmtRm s.intermedia.length op t o b],
       s.symbolTable, s.tmpOffset, s.intermedia.length + 1⟩ := by
  unfold emitRm; exact emitCode_ofInv _ _ h

theorem emitR0_ofInv (op : OpCode) (t f g : Nat) (s : Compiler) (h : inv s) :
    emitR0 op t f g s =
      ⟨s.intermedia ++ [fmtR0 s.intermedia.length op t f g],
       s.symbolTable, s.tmpOffset, s.intermedia.length + 1⟩ := by
  unfold emitR0; exact emitCode_ofInv _ _ h

theorem inv_append (buf : List String) (tab : List (String × Int)) (tmp : Int)
    (c : String) : inv ⟨buf ++ [c], tab, tmp, buf.length + 1⟩ := by
  simp [inv]

theorem inv_mk_len (buf : List String) (tab : List (String × Int)) (tmp : Int) :
    inv ⟨buf, tab, tmp, buf.length⟩ := rfl

theorem inv_table (s : Compiler) (tab : List (String × Int)) (h : inv s) :
    inv { s with symbolTable := tab } := h

/-! ## Decomposition of successful compiles -/

theorem compileInfix_decomp {op : Token} {l r : Expr} {s s' : Compiler}
    (h : compileExpr (.infixExpr op l r) s = .ok s') :
    ∃ s1 s4, compileExpr l s = .ok s1 ∧
      compileExpr r (spillLeft s1) = .ok s4 ∧
      isInfixOp op.tokenType = true ∧
      s' = opFinish op.tokenType (reloadLeft s4) := by
  rw [compileExpr] at h
  split at h
  · exact absurd h (by simp)
  · rename_i s1 heq
    split at h
    · exact absurd h (by simp)
    · rename_i s4 heq2
      split at h
      · rename_i hop
        refine ⟨s1, s4, heq, heq2, hop, ?_⟩
        injection h with h
        exact h.symm
      · exact absurd h (by simp)

theorem compileIf_decomp {cond : Expr} {conseq : Block} {s s' : Compiler}
    (h : compileStmt (.ifStmt cond conseq) s = .ok s') :
    ∃ s1 s2, compileExpr cond s = .ok s1 ∧
      compileBlock conseq (emitSkip 1 s1).2 = .ok s2 ∧
      s' = backpatchIf s1.intermedia.length s2 := by
  rw [compileStmt] at h
  split at h
  · exact absurd h (by simp)
  · rename_i s1 heq
    split at h
    · exact absurd h (by simp)
    · rename_i s2 heq2
      refine ⟨s1, s2, heq, heq2, ?_⟩
      injection h with h
      exact h.symm

/-! ## The scratch-offset counter is restored by every compile step -/

theorem opFinish_tmpOffset (t : TokenType) (s : Compiler) :
    (opFinish t s).tmpOffset = s.tmpOffset := by
  unfold opFinish
  cases t <;> simp [emitRm, emitR0, emitCode_tmpOffset]

theorem reloadLeft_tmpOffset (s4 : Compiler) :
    (reloadLeft s4).tmpOffset = s4.tmpOffset + 1 := by
  simp [reloadLeft, emitRm, emitCode_tmpOffset]

theorem spillLeft_tmpOffset (s1 : Compiler) :
    (spillLeft s1).tmpOffset = s1.tmpOffset - 1 := rfl

/-- Compiling any expression node leaves tmp_offset where it was. -/
theorem exprTmp (e : Expr) : ∀ s s' : Compiler,
    compileExpr e s = .ok s' → s'.tmpOffset = s.tmpOffset := by
  induction e with
  | number v =>
    intro s s' h
    injection h with h
    subst h
    simp [emitRm, emitCode_tmpOffset]
  | identExpr n =>
    intro s s' h
    injection h with h
    subst h
    simp [emitRm, emitCode_tmpOffset]
  | infixExpr op l r ihl ihr =>
    intro s s' h
    obtain ⟨s1, s4, hl, hr, hop, rfl⟩ := compileInfix_decomp h
    have h1 := ihl s s1 hl
    have h4 := ihr (spillLeft s1) s4 hr
    rw [opFinish_tmpOffset, reloadLeft_tmpOffset, h4, spillLeft_tmpOffset, h1]
    omega

theorem backpatchIf_tmpOffset (a : Nat) (s2 : Compiler) :
    (backpatchIf a s2).tmpOffset = s2.tmpOffset := by
  simp [backpatchIf, emitRestore, emitRmAbs, emitBackup, emitSkip, emitCode_tmpOffset]

mutual
/-- Compiling any statement node leaves tmp_offset where it was. -/
theorem stmtTmp (st : Stmt) : ∀ s s' : Compiler,
    compileStmt st s = .ok s' → s'.tmpOffset = s.tmpOffset := by
  cases st with
  | readStmt name =>
    intro s s' h
    injection h with h
    subst h
    simp [emitRm, emitR0, emitCode_tmpOffset]
  | writeStmt name =>
    intro s s' h
    rw [compileStmt] at h
    split at h
    · exact absurd h (by simp)
    · rename_i s1 heq
      injection h with h
      subst h
      have := exprTmp (.identExpr name) s s1 heq
      simp [emitR0, emitCode_tmpOffset, this]
  | assignStmt name value =>
    intro s s' h
    rw [compileStmt] at h
    split at h
    · exact absurd h (by simp)
    · rename_i s1 heq
      injection h with h
      subst h
      have := exprTmp value s s1 heq
      simp [emitRm, emitCode_tmpOffset, this]
  | ifStmt cond conseq =>
    intro s s' h
    obtain ⟨s1, s2, hc, hb, rfl⟩ := compileIf_decomp h
    have h1 := exprTmp cond s s1 hc
    have h2 := blockTmp conseq _ _ hb
    rw [backpatchIf_tmpOffset, h2]
    simpa [emitSkip] using h1
  | repeatStmt cond conseq =>
    intro s s' h
    injection h with h
    subst h
    rfl

theorem blockTmp (b : Block) : ∀ s s' : Compiler,
    compileBlock b s = .ok s' → s'.tmpOffset = s.tmpOffset := by
  cases b with
  | nil =>
    intro s s' h
    injection h with h
    subst h
    rfl
  | cons st rest =>
    intro s s' h
    rw [compileBlock] at h
    split at h
    · exact absurd h (by simp)
    · rename_i s1 heq
      have h1 := stmtTmp st s s1 heq
      have h2 := blockTmp rest s1 s' h
      rw [h2, h1]
end

/-! ## Buffer growth: compiling appends, and how many lines it appends -/

theorem spillLeft_buf (s1 : Compiler) (h : inv s1) :
    inv (spillLeft s1) ∧ (spillLeft s1).symbolTable = s1.symbolTable ∧
      (spillLeft s1).intermedia =
        s1.intermedia ++ [fmtRm s1.intermedia.length .ST AC (i32ToUsize s1.tmpOffset) MP] := by
  unfold spillLeft
  rw [emitRm_ofInv _ _ _ _ _ h]
  exact ⟨by simp [inv], rfl, rfl⟩

theorem reloadLeft_buf (s4 : Compiler) (h : inv s4) :
    inv (reloadLeft s4) ∧ (reloadLeft s4).symbolTable = s4.symbolTable ∧
      (reloadLeft s4).intermedia =
        s4.intermedia ++ [fmtRm s4.intermedia.length .LD AC1 (i32ToUsize (s4.tmpOffset + 1)) MP] := by
  unfold reloadLeft
  have h2 : inv { s4 with tmpOffset := s4.tmpOffset + 1 } := h
  rw [emitRm_ofInv _ _ _ _ _ h2]
  exact ⟨by simp [inv], rfl, rfl⟩

theorem opFinish_buf (t : TokenType) (s : Compiler) (ht : isInfixOp t = true) (h : inv s) :
    inv (opFinish t s) ∧ (opFinish t s).symbolTable = s.symbolTable ∧
      ∃ tl, (opFinish t s).intermedia = s.intermedia ++ tl ∧ tl.length = opEmitCount t := by
  obtain ⟨buf, tab, tmp, loc⟩ := s
  replace h : loc = buf.length := h
  subst h
  cases t <;> simp [isInfixOp] at ht <;>
    simp [opFinish, opEmitCount, emitRm, emitR0, emitCode, inv, List.append_assoc]

/-- Compiling an expression preserves the cursor invariant and the symbol
table, and appends exactly countExprShape lines. -/
theorem exprBuf (e : Expr) : ∀ s s' : Compiler, inv s → compileExpr e s = .ok s' →
    inv s' ∧ s'.symbolTable = s.symbolTable ∧
      ∃ tl, s'.intermedia = s.intermedia ++ tl ∧
        tl.length = countExprShape (shapeExpr e) := by
  induction e with
  | number v =>
    intro s s' hs h
    injection h with h
    subst h
    rw [emitRm_ofInv _ _ _ _ _ hs]
    exact ⟨by simp [inv], rfl, [_], rfl, rfl⟩
  | identExpr n =>
    intro s s' hs h
    injection h with h
    subst h
    rw [emitRm_ofInv _ _ _ _ _ hs]
    exact ⟨by simp [inv], rfl, [_], rfl, rfl⟩
  | infixExpr op l r ihl ihr =>
    intro s s' hs h
    obtain ⟨s1, s4, hl, hr, hop, rfl⟩ := compileInfix_decomp h
    obtain ⟨hi1, ht1, tl1, he1, hn1⟩ := ihl s s1 hs hl
    obtain ⟨hisp, htsp, hesp⟩ := spillLeft_buf s1 hi1
    obtain ⟨hi4, ht4, tl2, he2, hn2⟩ := ihr (spillLeft s1) s4 hisp hr
    obtain ⟨hirl, htrl, herl⟩ := reloadLeft_buf s4 hi4
    obtain ⟨hif, htf, tl3, he3, hn3⟩ := opFinish_buf op.tokenType (reloadLeft s4) hop hirl
    refine ⟨hif, ?_, ?_⟩
    · rw [htf, htrl, ht4, htsp, ht1]
    · refine ⟨tl1 ++ [fmtRm s1.intermedia.length .ST AC (i32ToUsize s1.tmpOffset) MP] ++
        tl2 ++ [fmtRm s4.intermedia.length .LD AC1 (i32ToUsize (s4.tmpOffset + 1)) MP] ++ tl3,
        ?_, ?_⟩
      · rw [he3, herl, he2, hesp, he1]
        simp [List.append_assoc]
      · simp [shapeExpr, countExprShape, hn1, hn2, hn3]
        omega

/-! ## What the backpatch sequence writes -/

/-- After the then-block, backpatchIf reserves one more slot, then patches
the first reserved slot with JEQ landing one past the buffer end and the
second with a zero-distance LDA jump.  The offsets are exactly as the code
computes them: end-of-buffer-at-patch-time minus slot minus one. -/
theorem backpatchIf_eq (afterCond : Nat) (s2 : Compiler)
    (hinv : inv s2) (hle : afterCond ≤ s2.intermedia.length) :
    backpatchIf afterCond s2 =
      ⟨((s2.intermedia ++ [""]).set afterCond
          (fmtRmAbs afterCond .JEQ AC (s2.intermedia.length - afterCond))).set
        s2.intermedia.length (fmtRmAbs s2.intermedia.length .LDA PC 0),
       s2.symbolTable, s2.tmpOffset, s2.intermedia.length + 1⟩ := by
  obtain ⟨buf, tab, tmp, loc⟩ := s2
  replace hinv : loc = buf.length := hinv
  subst hinv
  replace hle : afterCond ≤ buf.length := hle
  have h1 : ¬ afterCond = buf.length + 1 := by omega
  have h2 : ¬ buf.length = buf.length + 1 := by omega
  simp [backpatchIf, emitSkip, emitBackup, emitRestore, emitRmAbs, emitCode,
    h1, h2, Nat.add_sub_add_right, Nat.sub_self]

theorem emitRm_buf (op : OpCode) (t o b : Nat) (s : Compiler) (h : inv s) :
    inv (emitRm op t o b s) ∧
      ∃ c, (emitRm op t o b s).intermedia = s.intermedia ++ [c] := by
  rw [emitRm_ofInv _ _ _ _ _ h]
  exact ⟨by simp [inv], _, rfl⟩

theorem emitR0_buf (op : OpCode) (t f g : Nat) (s : Compiler) (h : inv s) :
    inv (emitR0 op t f g s) ∧
      ∃ c, (emitR0 op t f g s).intermedia = s.intermedia ++ [c] := by
  rw [emitR0_ofInv _ _ _ _ _ h]
  exact ⟨by simp [inv], _, rfl⟩

theorem emitSkip_buf (k : Nat) (s : Compiler) (h : inv s) :
    inv (emitSkip k s).2 ∧
      (emitSkip k s).2.intermedia = s.intermedia ++ List.replicate k "" := by
  unfold emitSkip
  refine ⟨?_, rfl⟩
  simp [inv] at h ⊢
  omega

/-- Setting an element past a prefix rewrites only the tail. -/
theorem setBeyondFront {α : Type} (A T : List α) (i : Nat) (x : α)
    (h : A.length ≤ i) : (A ++ T).set i x = A ++ T.set (i - A.length) x := by
  rw [List.set_append, if_neg (by omega)]

mutual
/-- Compiling a statement preserves the cursor invariant and appends exactly
countStmtShape lines (backpatching overwrites reserved slots but never
changes the listing length). -/
theorem stmtBuf (st : Stmt) : ∀ s s' : Compiler, inv s → compileStmt st s = .ok s' →
    inv s' ∧ ∃ tl, s'.intermedia = s.intermedia ++ tl ∧
      tl.length = countStmtShape (shapeStmt st) := by
  cases st with
  | readStmt name =>
    intro s s' hs h
    injection h with h
    subst h
    obtain ⟨hi1, c1, hc1⟩ := emitR0_buf .IN AC 0 0 s hs
    have hupd : inv { emitR0 .IN AC 0 0 s with
        symbolTable := (if lookUp (emitR0 .IN AC 0 0 s).symbolTable name = -1 then
          insertSym (emitR0 .IN AC 0 0 s).symbolTable name
        else ((emitR0 .IN AC 0 0 s).symbolTable,
          lookUp (emitR0 .IN AC 0 0 s).symbolTable name)).1 } := hi1
    obtain ⟨hi2, c2, hc2⟩ := emitRm_buf .ST AC _ GP _ hupd
    exact ⟨hi2, [c1, c2], by rw [hc2]; simp [hc1], rfl⟩
  | writeStmt name =>
    intro s s' hs h
    rw [compileStmt] at h
    split at h
    · exact absurd h (by simp)
    · rename_i s1 heq
      injection h with h
      subst h
      obtain ⟨hi1, ht1, tl1, he1, hn1⟩ := exprBuf (.identExpr name) s s1 hs heq
      obtain ⟨hi2, c2, hc2⟩ := emitR0_buf .OUT AC 0 0 s1 hi1
      refine ⟨hi2, tl1 ++ [c2], by rw [hc2, he1]; simp, ?_⟩
      simp [shapeExpr, countExprShape] at hn1
      simp [shapeStmt, countStmtShape, hn1]
  | assignStmt name value =>
    intro s s' hs h
    rw [compileStmt] at h
    split at h
    · exact absurd h (by simp)
    · rename_i s1 heq
      injection h with h
      subst h
      obtain ⟨hi1, ht1, tl1, he1, hn1⟩ := exprBuf value s s1 hs heq
      have hupd : inv { s1 with
          symbolTable := (if lookUp s1.symbolTable name = -1 then
            insertSym s1.symbolTable name
          else (s1.symbolTable, lookUp s1.symbolTable name)).1 } := hi1
      obtain ⟨hi2, c2, hc2⟩ := emitRm_buf .ST AC _ GP _ hupd
      refine ⟨hi2, tl1 ++ [c2], by rw [hc2]; simp [he1], ?_⟩
      simp [shapeStmt, countStmtShape, hn1]
  | ifStmt cond conseq =>
    intro s s' hs h
    obtain ⟨s1, s2, hc, hb, rfl⟩ := compileIf_decomp h
    obtain ⟨hi1, ht1, tl1, he1, hn1⟩ := exprBuf cond s s1 hs hc
    obtain ⟨hiA, heA⟩ := emitSkip_buf 1 s1 hi1
    obtain ⟨hi2, tl2, he2, hn2⟩ := blockBuf conseq _ s2 hiA hb
    have hslot : s1.intermedia.length = s.intermedia.length + tl1.length := by
      rw [he1]
      simp
    have hlen2 : s2.intermedia.length =
        s.intermedia.length + (tl1.length + 1 + tl2.length) := by
      rw [he2, heA, he1]
      simp
      omega
    have hle : s1.intermedia.length ≤ s2.intermedia.length := by omega
    rw [backpatchIf_eq _ _ hi2 hle]
    constructor
    · simp [inv]
    · have hbuf2 : s2.intermedia ++ [""] =
          s.intermedia ++ (tl1 ++ [""] ++ tl2 ++ [""]) := by
        rw [he2, heA, he1]
        simp [List.append_assoc]
      refine ⟨((tl1 ++ [""] ++ tl2 ++ [""]).set tl1.length
          (fmtRmAbs s1.intermedia.length .JEQ AC
            (s2.intermedia.length - s1.intermedia.length))).set
          (tl1.length + 1 + tl2.length)
          (fmtRmAbs s2.intermedia.length .LDA PC 0), ?_, ?_⟩
      · rw [hbuf2]
        rw [setBeyondFront _ _ _ _ (by omega)]
        rw [setBeyondFront _ _ _ _ (by omega)]
        have i1 : s1.intermedia.length - s.intermedia.length = tl1.length := by omega
        have i2 : s2.intermedia.length - s.intermedia.length =
            tl1.length + 1 + tl2.length := by omega
        rw [i1, i2]
      · simp [shapeStmt, countStmtShape, hn1, hn2]
        omega
  | repeatStmt cond conseq =>
    intro s s' hs h
    injection h with h
    subst h
    exact ⟨hs, [], by simp, rfl⟩

theorem blockBuf (b : Block) : ∀ s s' : Compiler, inv s → compileBlock b s = .ok s' →
    inv s' ∧ ∃ tl, s'.intermedia = s.intermedia ++ tl ∧
      tl.length = countBlockShape (shapeBlock b) := by
  cases b with
  | nil =>
    intro s s' hs h
    injection h with h
    subst h
    exact ⟨hs, [], by simp, rfl⟩
  | cons st rest =>
    intro s s' hs h
    rw [compileBlock] at h
    split at h
    · exact absurd h (by simp)
    · rename_i s1 heq
      obtain ⟨hi1, tl1, he1, hn1⟩ := stmtBuf st s s1 hs heq
      obtain ⟨hi2, tl2, he2, hn2⟩ := blockBuf rest s1 s' hi1 h
      refine ⟨hi2, tl1 ++ tl2, by rw [he2, he1]; simp, ?_⟩
      simp [shapeBlock, countBlockShape, hn1, hn2]
end

/-! ## Reading lines back out of the listing -/

theorem get_append_left {α : Type} (A B : List α) (i : Nat) (h : i < A.length) :
    (A ++ B)[i]? = A[i]? := by
  rw [List.getElem?_append, if_pos h]

theorem get_boundary {α : Type} (A : List α) (x : α) (B : List α) :
    (A ++ x :: B)[A.length]? = some x := by
  have e : A ++ x :: B = (A ++ [x]) ++ B := by simp
  rw [e, get_append_left _ _ _ (by simp), List.getElem?_concat_length]

/-! ## The symbol table -/

theorem insertSym_extends (t : List (String × Int)) (n : String) :
    ∃ tl, (insertSym t n).1 = t ++ tl := by
  unfold insertSym
  split
  · exact ⟨[], by simp⟩
  · exact ⟨[(n, (t.length : Int))], rfl⟩

theorem runOps_extends (ops : List SymOp) : ∀ t, ∃ tl, runOps ops t = t ++ tl := by
  induction ops with
  | nil => exact fun t => ⟨[], by simp [runOps]⟩
  | cons op rest ih =>
    intro t
    cases op with
    | look n => simpa [runOps] using ih t
    | ins n =>
      obtain ⟨tl1, h1⟩ := insertSym_extends t n
      obtain ⟨tl2, h2⟩ := ih (insertSym t n).1
      exact ⟨tl1 ++ tl2, by rw [runOps, h2, h1, List.append_assoc]⟩

theorem containsKey_of_lookUp (t : List (String × Int)) (n : String) (v : Int)
    (h : lookUp t n = v) (hv : v ≠ -1) : containsKey t n = true := by
  induction t with
  | nil =>
    simp [lookUp] at h
    exact absurd h.symm hv
  | cons e rest ih =>
    by_cases he : e.1 = n
    · simp [containsKey, he]
    · simp [lookUp, he] at h
      simpa [containsKey, he] using ih h

theorem lookUp_append (t u : List (String × Int)) (n : String)
    (h : containsKey t n = true) : lookUp (t ++ u) n = lookUp t n := by
  induction t with
  | nil => simp [containsKey] at h
  | cons e rest ih =>
    by_cases he : e.1 = n
    · simp [lookUp, he]
    · simp [containsKey, he] at h
      simpa [lookUp, he] using ih h

theorem runOps_dense_aux (ops : List SymOp) : ∀ t : List (String × Int),
    t.map Prod.snd = (List.range t.length).map Int.ofNat →
    (runOps ops t).map Prod.snd =
      (List.range (runOps ops t).length).map Int.ofNat := by
  induction ops with
  | nil => intro t h; simpa [runOps] using h
  | cons op rest ih =>
    intro t h
    cases op with
    | look n => exact ih t h
    | ins n =>
      apply ih
      unfold insertSym
      split
      · exact h
      · simp [List.range_succ, h]

/-! ## The scanner at end of input -/

theorem lookUpKeywords_ne_eof (s : String) : lookUpKeywords s ≠ .eof := by
  unfold lookUpKeywords
  split_ifs <;> simp

theorem nextChar_fst (l : Lexer) : (nextChar l).1 = peekChar l := by
  unfold nextChar
  dsimp only
  split <;> rfl

theorem nextChar_nul {l : Lexer} (h : peekChar l = Char.ofNat 0) :
    nextChar l = (Char.ofNat 0, l) := by
  unfold nextChar
  rw [h]
  simp

theorem consumeSpaces_stop {f : Nat} {l : Lexer}
    (h : peekChar l ≠ '\n' ∧ peekChar l ≠ '\r' ∧ peekChar l ≠ '\t' ∧ peekChar l ≠ ' ') :
    consumeSpaces f l = l := by
  cases f with
  | zero => rfl
  | succ f =>
    unfold consumeSpaces
    rw [if_pos h]

set_option maxHeartbeats 1000000 in
theorem tokenDispatch_eof {f : Nat} {ch : Char} {l : Lexer} {t : Token} {l2 : Lexer}
    (h : tokenDispatch f ch l = (t, l2)) (he : t.tokenType = .eof) :
    ch = Char.ofNat 0 ∧ l2 = l := by
  unfold tokenDispatch at h
  dsimp only at h
  by_cases c1 : ch = ';'
  · rw [if_pos c1] at h
    injection h with ht hl
    subst ht
    exact absurd he (by simp)
  rw [if_neg c1] at h
  by_cases c2 : ch = '<'
  · rw [if_pos c2] at h
    by_cases c2b : peekChar l = '='
    · rw [if_pos c2b] at h
      injection h with ht hl
      subst ht
      exact absurd he (by simp)
    · rw [if_neg c2b] at h
      injection h with ht hl
      subst ht
      exact absurd he (by simp)
  rw [if_neg c2] at h
  by_cases c3 : ch = '='
  · rw [if_pos c3] at h
    injection h with ht hl
    subst ht
    exact absurd he (by simp)
  rw [if_neg c3] at h
  by_cases c4 : ch = ':'
  · rw [if_pos c4] at h
    injection h with ht hl
    subst ht
    exact absurd he (by simp)
  rw [if_neg c4] at h
  by_cases c5 : ch = '*'
  · rw [if_pos c5] at h
    injection h with ht hl
    subst ht
    exact absurd he (by simp)
  rw [if_neg c5] at h
  by_cases c6 : ch = '-'
  · rw [if_pos c6] at h
    injection h with ht hl
    subst ht
    exact absurd he (by simp)
  rw [if_neg c6] at h
  by_cases c7 : ch = '+'
  · rw [if_pos c7] at h
    injection h with ht hl
    subst ht
    exact absurd he (by simp)
  rw [if_neg c7] at h
  by_cases c8 : ch = '/'
  · rw [if_pos c8] at h
    injection h with ht hl
    subst ht
    exact absurd he (by simp)
  rw [if_neg c8] at h
  by_cases c9 : ch = '\"'
  · rw [if_pos c9] at h
    injection h with ht hl
    subst ht
    exact absurd he (by simp)
  rw [if_neg c9] at h
  by_cases c10 : ch = Char.ofNat 0
  · rw [if_pos c10] at h
    injection h with ht hl
    subst ht
    exact ⟨c10, hl.symm⟩
  rw [if_neg c10] at h
  by_cases c11 : isLetter ch = true
  · rw [if_pos c11] at h
    injection h with ht hl
    subst ht
    exact absurd he (lookUpKeywords_ne_eof _)
  rw [if_neg c11] at h
  by_cases c12 : isDigit ch = true
  · rw [if_pos c12] at h
    injection h with ht hl
    subst ht
    exact absurd he (by simp)
  rw [if_neg c12] at h
  injection h with ht hl
  subst ht
  exact absurd he (by simp)

theorem nextTokenF_nul {f : Nat} {l : Lexer} (h : peekChar l = Char.ofNat 0) :
    nextTokenF f l = (Token.mk .eof "", l) := by
  have hns : peekChar l ≠ '\n' ∧ peekChar l ≠ '\r' ∧ peekChar l ≠ '\t' ∧ peekChar l ≠ ' ' := by
    rw [h]
    decide
  unfold nextTokenF
  dsimp only
  rw [consumeSpaces_stop hns, nextChar_nul h]
  rfl

theorem nextTokenF_eof_peek {f : Nat} {l : Lexer} {t : Token} {l2 : Lexer}
    (h : nextTokenF f l = (t, l2)) (he : t.tokenType = .eof) :
    peekChar l2 = Char.ofNat 0 := by
  unfold nextTokenF at h
  dsimp only at h
  obtain ⟨hch, hl⟩ := tokenDispatch_eof h he
  rw [nextChar_fst] at hch
  rw [nextChar_nul hch] at hl
  rw [hl]
  exact hch

/-! ## When compile succeeds: exactly on trees whose reached infix
operators are all supported -/

theorem exprOk (e : Expr) : ∀ s : Compiler,
    (∃ s', compileExpr e s = .ok s') ↔ okExprShape (shapeExpr e) = true := by
  induction e with
  | number v =>
    intro s
    exact ⟨fun _ => rfl, fun _ => ⟨_, rfl⟩⟩
  | identExpr n =>
    intro s
    exact ⟨fun _ => rfl, fun _ => ⟨_, rfl⟩⟩
  | infixExpr op l r ihl ihr =>
    intro s
    constructor
    · rintro ⟨s', h⟩
      obtain ⟨s1, s4, hl, hr, hop, _⟩ := compileInfix_decomp h
      simp [shapeExpr, okExprShape]
      exact ⟨⟨(ihl s).mp ⟨s1, hl⟩, (ihr (spillLeft s1)).mp ⟨s4, hr⟩⟩, hop⟩
    · intro hok
      simp [shapeExpr, okExprShape] at hok
      obtain ⟨⟨hokl, hokr⟩, hop⟩ := hok
      obtain ⟨s1, hl⟩ := (ihl s).mpr hokl
      obtain ⟨s4, hr⟩ := (ihr (spillLeft s1)).mpr hokr
      refine ⟨opFinish op.tokenType (reloadLeft s4), ?_⟩
      rw [compileExpr, hl]
      dsimp only
      rw [hr]
      dsimp only
      rw [if_pos hop]

mutual
theorem stmtOk (st : Stmt) : ∀ s : Compiler,
    (∃ s', compileStmt st s = .ok s') ↔ okStmtShape (shapeStmt st) = true := by
  cases st with
  | readStmt name =>
    intro s
    exact ⟨fun _ => rfl, fun _ => ⟨_, rfl⟩⟩
  | writeStmt name =>
    intro s
    exact ⟨fun _ => rfl, fun _ => ⟨_, rfl⟩⟩
  | assignStmt name value =>
    intro s
    constructor
    · rintro ⟨s', h⟩
      rw [compileStmt] at h
      split at h
      · exact absurd h (by simp)
      · rename_i s1 heq
        simpa [shapeStmt, okStmtShape] using (exprOk value s).mp ⟨s1, heq⟩
    · intro hok
      simp [shapeStmt, okStmtShape] at hok
      obtain ⟨s1, h1⟩ := (exprOk value s).mpr hok
      cases hfin : compileStmt (.assignStmt name value) s with
      | ok s2 => exact ⟨s2, rfl⟩
      | error m =>
        rw [compileStmt, h1] at hfin
        simp at hfin
  | ifStmt cond conseq =>
    intro s
    constructor
    · rintro ⟨s', h⟩
      obtain ⟨s1, s2, hc, hb, _⟩ := compileIf_decomp h
      simp [shapeStmt, okStmtShape]
      exact ⟨(exprOk cond s).mp ⟨s1, hc⟩, (blockOk conseq _).mp ⟨s2, hb⟩⟩
    · intro hok
      simp [shapeStmt, okStmtShape] at hok
      obtain ⟨hokc, hokb⟩ := hok
      obtain ⟨s1, hc⟩ := (exprOk cond s).mpr hokc
      obtain ⟨s2, hb⟩ := (blockOk conseq (emitSkip 1 s1).2).mpr hokb
      cases hfin : compileStmt (.ifStmt cond conseq) s with
      | ok s3 => exact ⟨s3, rfl⟩
      | error m =>
        rw [compileStmt, hc] at hfin
        simp only [] at hfin
        rw [hb] at hfin
        simp at hfin
  | repeatStmt cond conseq =>
    intro s
    exact ⟨fun _ => rfl, fun _ => ⟨s, rfl⟩⟩

theorem blockOk (b : Block) : ∀ s : Compiler,
    (∃ s', compileBlock b s = .ok s') ↔ okBlockShape (shapeBlock b) = true := by
  cases b with
  | nil =>
    intro s
    exact ⟨fun _ => rfl, fun _ => ⟨s, rfl⟩⟩
  | cons st rest =>
    intro s
    constructor
    · rintro ⟨s', h⟩
      rw [compileBlock] at h
      split at h
      · exact absurd h (by simp)
      · rename_i s1 heq
        simp [shapeBlock, okBlockShape]
        exact ⟨(stmtOk st s).mp ⟨s1, heq⟩, (blockOk rest s1).mp ⟨s', h⟩⟩
    · intro hok
      simp [shapeBlock, okBlockShape] at hok
      obtain ⟨hok1, hok2⟩ := hok
      obtain ⟨s1, h1⟩ := (stmtOk st s).mpr hok1
      obtain ⟨s2, h2⟩ := (blockOk rest s1).mpr hok2
      refine ⟨s2, ?_⟩
      rw [compileBlock, h1]
      dsimp only
      exact h2
end

/-- One-step reduction of parse_if_statement at positive fuel (stated so
the consume-expected analysis can rewrite with it; proved by reduction). -/
theorem parseIfStatementF_succ (fuel : Nat) (lx : Lexer) (pk : Token) :
    parseIfStatementF (fuel + 1) ⟨lx, pk⟩ =
      (let r := nextTokenP ⟨lx, pk⟩
       match parseExpression r.2 with
       | .error e => .error e
       | .ok (cond, p1) =>
         if p1.peek.tokenType = .thenKw then
           (let r2 := nextTokenP p1
            match parseBlockStatementF fuel r2.2 with
            | .error e => .error e
            | .ok (conseq, p2) =>
              let r3 := nextTokenP p2
              .ok (.ifStmt cond conseq, r3.2))
         else .error "expected TokenType Then") := rfl

/-! # The claims -/

/-- C1: for every if-cond-then-block-end statement, the conditional jump
written into the first reserved slot during backpatching carries a
PC-relative offset equal to (end-of-block-address - slot-address - 1),
for every consequence block length including the zero-statement block.
The slot address is the buffer length right after the condition is
compiled, and the end-of-block address is the end-of-buffer address
recorded at patch time, which equals the final listing length of the
if statement since patching never changes the length. -/
theorem ifBackpatchSlotOffset (cond : Expr) (conseq : Block) (s s1 s' : Compiler)
    (hinv : inv s) (hcond : compileExpr cond s = .ok s1)
    (h : compileStmt (.ifStmt cond conseq) s = .ok s') :
    s'.intermedia[s1.intermedia.length]? =
      some (fmtRmAbs s1.intermedia.length .JEQ AC
        (s'.intermedia.length - s1.intermedia.length - 1)) := by
  obtain ⟨s1', s2, hc, hb, rfl⟩ := compileIf_decomp h
  rw [hcond] at hc
  injection hc with hc
  subst hc
  obtain ⟨hi1, ht1, tl1, he1, hn1⟩ := exprBuf cond s s1 hinv hcond
  obtain ⟨hiA, heA⟩ := emitSkip_buf 1 s1 hi1
  obtain ⟨hi2, tl2, he2, hn2⟩ := blockBuf conseq _ s2 hiA hb
  have hlen : s2.intermedia.length = s1.intermedia.length + 1 + tl2.length := by
    rw [he2, heA]
    simp
    omega
  have hle : s1.intermedia.length ≤ s2.intermedia.length := by omega
  rw [backpatchIf_eq _ _ hi2 hle]
  dsimp only
  rw [List.getElem?_set_ne (by omega)]
  rw [List.getElem?_set_eq (by simp; omega)]
  have harith : ((((s2.intermedia ++ [""]).set s1.intermedia.length
      (fmtRmAbs s1.intermedia.length .JEQ AC
        (s2.intermedia.length - s1.intermedia.length))).set s2.intermedia.length
      (fmtRmAbs s2.intermedia.length .LDA PC 0)).length) -
        s1.intermedia.length - 1 = s2.intermedia.length - s1.intermedia.length := by
    simp
    omega
  rw [harith]

/-- C1 witness: the zero-statement consequence block on the condition 0. -/
theorem ifBackpatchSlotOffset_witness :
    (⟨[fmtRm 0 .LDC 0 0 0, fmtRmAbs 1 .JEQ 0 1, fmtRmAbs 2 .LDA 7 0],
        [], 0, 3⟩ : Compiler).intermedia[1]? =
      some (fmtRmAbs 1 .JEQ AC (3 - 1 - 1)) :=
  ifBackpatchSlotOffset (.number 0) Block.nil compilerNew
    ⟨[fmtRm 0 .LDC 0 0 0], [], 0, 1⟩
    ⟨[fmtRm 0 .LDC 0 0 0, fmtRmAbs 1 .JEQ 0 1, fmtRmAbs 2 .LDA 7 0], [], 0, 3⟩
    rfl rfl rfl

/-- C2 counterexample: compiling the program if 0 < x then y := 1; end,
the backpatched conditional jump at address 9 carries offset 3, so its
resolved PC-relative target is 13; the single ST instruction emitted for
y := 1 sits at address 11, so the address immediately after it is 12.
The resolved target is NOT that address. -/
theorem demoJumpTarget_cex :
    parseProgramStr demoSrc = .ok demoParsed ∧
    compileProgram demoParsed compilerNew = .ok demoCompiled ∧
    demoCompiled.intermedia[9]? = some (fmtRmAbs 9 .JEQ 0 3) ∧
    demoCompiled.intermedia[11]? = some (fmtRm 11 .ST 0 0 5) ∧
    resolvedTarget 9 3 ≠ 11 + 1 :=
  ⟨rfl, rfl, rfl, rfl, by decide⟩

/-- C2 amended: for if 0 < x then y := 1; end, the conditional jump
resolves to the address immediately after the backpatched second reserved
slot (the zero-distance LDA jump at address 12), i.e. to the end of the
listing at 13 — one instruction past the address immediately after the
single ST of the assignment. -/
theorem demoJumpTarget_amended :
    parseProgramStr demoSrc = .ok demoParsed ∧
    compileProgram demoParsed compilerNew = .ok demoCompiled ∧
    demoCompiled.intermedia[9]? = some (fmtRmAbs 9 .JEQ 0 3) ∧
    demoCompiled.intermedia[11]? = some (fmtRm 11 .ST 0 0 5) ∧
    demoCompiled.intermedia[12]? = some (fmtRmAbs 12 .LDA 7 0) ∧
    resolvedTarget 9 3 = 12 + 1 ∧
    demoCompiled.intermedia.length = 13 :=
  ⟨rfl, rfl, rfl, rfl, rfl, rfl, rfl⟩

/-- C3 counterexample: a RepeatStatement — a node kind with no translation
rule, caught by the do-nothing catch-all arm — does not make compile fail:
a one-statement program holding only a repeat compiles successfully and
emits nothing, leaving the fresh compiler state untouched. -/
theorem repeatSilentlySkipped_cex :
    compileProgram (.cons (.repeatStmt (.identExpr "x") .nil) .nil) compilerNew =
      .ok compilerNew := rfl

/-- C3 amended: an InfixExpression whose operator token is not one of the
six supported operators is a fatal internal error, but a syntax-tree node
kind with no code-generation translation rule (RepeatStatement) is
silently skipped: compile returns successfully with the state unchanged. -/
theorem unsupportedOperatorFatalRepeatSkipped :
    (∀ (op : Token) (l r : Expr) (s : Compiler), isInfixOp op.tokenType = false →
        ∃ m, compileExpr (.infixExpr op l r) s = .error m) ∧
    (∀ (cond : Expr) (conseq : Block) (s : Compiler),
        compileStmt (.repeatStmt cond conseq) s = .ok s) := by
  constructor
  · intro op l r s hop
    cases hfin : compileExpr (.infixExpr op l r) s with
    | error m => exact ⟨m, rfl⟩
    | ok s' =>
      obtain ⟨s1, s4, _, _, hop2, _⟩ := compileInfix_decomp hfin
      rw [hop] at hop2
      exact Bool.noConfusion hop2
  · intro cond conseq s
    rfl

/-- C3 witness: the read keyword as an operator token is rejected. -/
theorem unsupportedOperatorFatalRepeatSkipped_witness :
    isInfixOp (Token.mk .readKw "read").tokenType = false ∧
    (∃ m, compileExpr (.infixExpr (Token.mk .readKw "read") (.number 1) (.number 2))
        compilerNew = .error m) :=
  ⟨rfl, unsupportedOperatorFatalRepeatSkipped.1 (Token.mk .readKw "read")
    (.number 1) (.number 2) compilerNew rfl⟩

/-- C4 counterexample: the input read x lacks the terminating semicolon
(the scanner is already at end of input when the consume-semicolon step
runs), yet parsing succeeds: the unchecked next_token call silently
consumes the end-of-input token in place of the semicolon. -/
theorem unterminatedReadParses_cex :
    parseProgramStr "read x" = .ok (.cons (.readStmt "x") .nil) ∧
    ';' ∉ "read x".data :=
  ⟨rfl, by decide⟩

/-- C4 amended: the consume-expected steps for then (after an if
condition) and := (after an assignment target) do fail fatally when the
peeked token does not match; but the terminating-semicolon steps are
unconditional consumes — parsing a read or write statement never fails,
whatever token stands where the semicolon should be (the same unchecked
consume ends assign and repeat statements). -/
theorem consumeExpectedChecks :
    (∀ p : Parser, (nextTokenP p).2.peek.tokenType ≠ TokenType.assign →
        ∃ m, parseAssignStatement p = .error m) ∧
    (∀ (fuel : Nat) (p : Parser) (cond : Expr) (p2 : Parser),
        parseExpression (nextTokenP p).2 = .ok (cond, p2) →
        p2.peek.tokenType ≠ TokenType.thenKw →
        ∃ m, parseIfStatementF (fuel + 1) p = .error m) ∧
    (∀ (fuel : Nat) (p : Parser), p.peek.tokenType = TokenType.readKw →
        ∃ st p2, parseStatementF (fuel + 1) p = .ok (st, p2)) ∧
    (∀ (fuel : Nat) (p : Parser), p.peek.tokenType = TokenType.writeKw →
        ∃ st p2, parseStatementF (fuel + 1) p = .ok (st, p2)) := by
  refine ⟨?_, ?_, ?_, ?_⟩
  · intro p hne
    unfold parseAssignStatement
    dsimp only
    rw [if_neg hne]
    exact ⟨_, rfl⟩
  · intro fuel p cond p2 hpe hth
    obtain ⟨lx, pk⟩ := p
    rw [parseIfStatementF_succ]
    dsimp only
    rw [hpe]
    dsimp only
    rw [if_neg hth]
    exact ⟨_, rfl⟩
  · intro fuel p hr
    obtain ⟨lx, tt, lit⟩ := p
    simp only at hr
    subst hr
    exact ⟨_, _, rfl⟩
  · intro fuel p hw
    obtain ⟨lx, tt, lit⟩ := p
    simp only at hw
    subst hw
    exact ⟨_, _, rfl⟩

/-- C4 witness: on the input x x the token after the assignment target is
not :=, and parse_assign_statement fails. -/
theorem consumeExpectedChecks_witness :
    (nextTokenP (parserNew "x x")).2.peek.tokenType ≠ TokenType.assign ∧
    (∃ m, parseAssignStatement (parserNew "x x") = .error m) :=
  ⟨by decide, consumeExpectedChecks.1 (parserNew "x x") (by decide)⟩

/-- C5: for every InfixExpression the generator emits ST of AC at the
current scratch offset under MP right after the left operand (at line
index equal to the buffer length at that point), and right after the
right operand emits LD of AC1 from exactly the same scratch offset; and
compiling any node (expression or statement) leaves the scratch-offset
counter equal to its value before the call. -/
theorem infixScratchProtocol :
    (∀ (e : Expr) (s s' : Compiler), compileExpr e s = .ok s' →
        s'.tmpOffset = s.tmpOffset) ∧
    (∀ (st : Stmt) (s s' : Compiler), compileStmt st s = .ok s' →
        s'.tmpOffset = s.tmpOffset) ∧
    (∀ (op : Token) (l r : Expr) (s s1 s2 s' : Compiler),
        inv s → compileExpr l s = .ok s1 →
        compileExpr r (spillLeft s1) = .ok s2 →
        compileExpr (.infixExpr op l r) s = .ok s' →
        s'.intermedia[s1.intermedia.length]? =
          some (fmtRm s1.intermedia.length .ST AC (i32ToUsize s1.tmpOffset) MP) ∧
        s'.intermedia[s2.intermedia.length]? =
          some (fmtRm s2.intermedia.length .LD AC1 (i32ToUsize s1.tmpOffset) MP)) := by
  refine ⟨exprTmp, stmtTmp, ?_⟩
  intro op l r s s1 s2 s' hinv h1 h2 h
  obtain ⟨s1', s4, hl, hr, hop, rfl⟩ := compileInfix_decomp h
  rw [h1] at hl
  injection hl with hl
  subst hl
  rw [h2] at hr
  injection hr with hr
  subst hr
  obtain ⟨hi1, _, tl1, he1, _⟩ := exprBuf l s s1 hinv h1
  obtain ⟨hisp, _, hesp⟩ := spillLeft_buf s1 hi1
  obtain ⟨hi2, _, tl2, he2, _⟩ := exprBuf r (spillLeft s1) s2 hisp h2
  obtain ⟨hirl, _, herl⟩ := reloadLeft_buf s2 hi2
  obtain ⟨_, _, tl3, he3, _⟩ := opFinish_buf op.tokenType (reloadLeft s2) hop hirl
  have htmp2 : s2.tmpOffset = s1.tmpOffset - 1 := by
    rw [exprTmp r (spillLeft s1) s2 h2, spillLeft_tmpOffset]
  constructor
  · have he : (opFinish op.tokenType (reloadLeft s2)).intermedia =
        s1.intermedia ++
          fmtRm s1.intermedia.length .ST AC (i32ToUsize s1.tmpOffset) MP ::
          (tl2 ++ fmtRm s2.intermedia.length .LD AC1 (i32ToUsize (s2.tmpOffset + 1)) MP :: tl3) := by
      rw [he3, herl, he2, hesp]
      simp
    rw [he, get_boundary]
  · have he : (opFinish op.tokenType (reloadLeft s2)).intermedia =
        s2.intermedia ++
          fmtRm s2.intermedia.length .LD AC1 (i32ToUsize (s2.tmpOffset + 1)) MP :: tl3 := by
      rw [he3, herl]
      simp
    rw [he, get_boundary]
    have : s2.tmpOffset + 1 = s1.tmpOffset := by omega
    rw [this]

/-- C5 witness: 1 + 2 from a fresh compiler: spill at scratch offset 0
(line 1), reload from the same offset (line 3). -/
theorem infixScratchProtocol_witness :
    (⟨[fmtRm 0 .LDC 0 1 0, fmtRm 1 .ST 0 0 6, fmtRm 2 .LDC 0 2 0,
        fmtRm 3 .LD 1 0 6, fmtR0 4 .ADD 0 1 0], [], 0, 5⟩ :
      Compiler).intermedia[1]? = some (fmtRm 1 .ST AC (i32ToUsize 0) MP) ∧
    (⟨[fmtRm 0 .LDC 0 1 0, fmtRm 1 .ST 0 0 6, fmtRm 2 .LDC 0 2 0,
        fmtRm 3 .LD 1 0 6, fmtR0 4 .ADD 0 1 0], [], 0, 5⟩ :
      Compiler).intermedia[3]? = some (fmtRm 3 .LD AC1 (i32ToUsize 0) MP) := by
  refine infixScratchProtocol.2.2 (Token.mk .add "+") (.number 1) (.number 2)
    compilerNew
    ⟨[fmtRm 0 .LDC 0 1 0], [], 0, 1⟩
    ⟨[fmtRm 0 .LDC 0 1 0, fmtRm 1 .ST 0 0 6, fmtRm 2 .LDC 0 2 0], [], -1, 3⟩
    ⟨[fmtRm 0 .LDC 0 1 0, fmtRm 1 .ST 0 0 6, fmtRm 2 .LDC 0 2 0,
      fmtRm 3 .LD 1 0 6, fmtR0 4 .ADD 0 1 0], [], 0, 5⟩
    rfl rfl ?_ ?_ <;> rfl

/-- C6: over any sequence of lookups and inserts, the offset returned for
a name never changes once assigned, and the offsets stored for distinct
names are pairwise distinct and form the dense range 0, 1, 2, ... in
first-insertion order (the table read left to right is insertion order). -/
theorem symbolTableStableDense :
    (∀ (ops : List SymOp) (t : List (String × Int)) (n : String) (v : Int),
        lookUp t n = v → v ≠ -1 → lookUp (runOps ops t) n = v) ∧
    (∀ ops : List SymOp,
        (runOps ops []).map Prod.snd =
          (List.range (runOps ops []).length).map Int.ofNat) ∧
    (∀ ops : List SymOp, ((runOps ops []).map Prod.snd).Nodup) := by
  refine ⟨?_, ?_, ?_⟩
  · intro ops t n v h hv
    obtain ⟨tl, htl⟩ := runOps_extends ops t
    rw [htl, lookUp_append _ _ _ (containsKey_of_lookUp t n v h hv), h]
  · intro ops
    exact runOps_dense_aux ops [] (by simp)
  · intro ops
    rw [runOps_dense_aux ops [] (by simp)]
    exact (List.nodup_range _).map (fun a b hab => Int.ofNat.inj hab)

/-- C6 witness: the offset of a survives a later insert of b. -/
theorem symbolTableStableDense_witness :
    lookUp [("a", 0)] "a" = 0 ∧
    lookUp (runOps [SymOp.ins "b"] [("a", 0)]) "a" = 0 :=
  ⟨rfl, symbolTableStableDense.1 [SymOp.ins "b"] [("a", 0)] "a" 0 rfl (by decide)⟩

/-- C7 counterexample: two parser-accepted programs break the claim.  The
empty source compiles to an EMPTY instruction listing, not a non-empty
one; and x := a <= b; parses (parse_expression takes the <= token as the
single infix operator), yet compile produces no listing at all — it
aborts with the fatal operator error of the InfixExpression catch-all. -/
theorem validProgramListing_cex :
    parseProgramStr "" = .ok Block.nil ∧
    compileProgram Block.nil compilerNew = .ok compilerNew ∧
    compilerNew.intermedia = [] ∧
    parseProgramStr "x := a <= b;" =
      .ok (.cons (.assignStmt "x"
        (.infixExpr (Token.mk .equalLessThan "<=") (.identExpr "a") (.identExpr "b"))) .nil) ∧
    compileProgram (.cons (.assignStmt "x"
        (.infixExpr (Token.mk .equalLessThan "<=") (.identExpr "a") (.identExpr "b"))) .nil)
      compilerNew = .error "token type is not infix operator" :=
  ⟨rfl, rfl, rfl, rfl, rfl⟩

/-- C7 amended: compile, a total function of the tree in this embedding,
terminates on every valid program; it produces an instruction listing if
and only if no infix node it reaches carries an unsupported operator
token (the parser does accept programs with one, such as x := a <= b;,
and compile then aborts with a fatal internal error instead of producing
a listing).  Both that success condition and, when a listing is produced,
its number of lines are functions of the syntax-tree shape alone (names
and literal values erased); the listing may be empty — it is for the
zero-statement program and for repeat-only programs. -/
theorem compileListingShape :
    (∀ (prog : Block) (s : Compiler),
        (∃ s', compileProgram prog s = .ok s') ↔
          okBlockShape (shapeBlock prog) = true) ∧
    (∀ (prog : Block) (s s' : Compiler), inv s → compileProgram prog s = .ok s' →
        s'.intermedia.length =
          s.intermedia.length + countBlockShape (shapeBlock prog)) := by
  constructor
  · exact fun prog s => blockOk prog s
  · intro prog s s' hinv h
    obtain ⟨_, tl, he, hn⟩ := blockBuf prog s s' hinv h
    rw [he]
    simp [hn]

/-- C7 witness: read x from a fresh compiler succeeds (its shape is all
supported) and emits exactly countBlockShape = 2 lines. -/
theorem compileListingShape_witness :
    okBlockShape (shapeBlock (.cons (.readStmt "x") .nil)) = true ∧
    (⟨[fmtR0 0 .IN 0 0 0, fmtRm 1 .ST 0 0 5], [("x", 0)], 0, 2⟩ :
        Compiler).intermedia.length =
      compilerNew.intermedia.length +
        countBlockShape (shapeBlock (.cons (.readStmt "x") .nil)) :=
  ⟨(compileListingShape.1 (.cons (.readStmt "x") .nil) compilerNew).mp
      ⟨⟨[fmtR0 0 .IN 0 0 0, fmtRm 1 .ST 0 0 5], [("x", 0)], 0, 2⟩, rfl⟩,
   compileListingShape.2 (.cons (.readStmt "x") .nil) compilerNew
      ⟨[fmtR0 0 .IN 0 0 0, fmtRm 1 .ST 0 0 5], [("x", 0)], 0, 2⟩ rfl rfl⟩

/-- C8: once the scanner has returned an end-of-input token, every
subsequent call to next_token returns an end-of-input token again and
leaves the lexer state unchanged — for every input, in particular the
empty one and one reduced to empty by comment stripping. -/
theorem scannerEofIdempotent (l : Lexer) (t : Token) (l2 : Lexer)
    (h : nextToken l = (t, l2)) (he : t.tokenType = .eof) :
    nextToken l2 = (Token.mk .eof "", l2) := by
  unfold nextToken at h ⊢
  exact nextTokenF_nul (nextTokenF_eof_peek h he)

/-- C8 witness: the empty input (already at end of input) keeps yielding
the end-of-input token. -/
theorem scannerEofIdempotent_witness :
    nextToken ((nextToken (lexerNew "")).2) =
      (Token.mk .eof "", (nextToken (lexerNew "")).2) :=
  scannerEofIdempotent (lexerNew "") (nextToken (lexerNew "")).1
    (nextToken (lexerNew "")).2 rfl rfl

/-- C9 counterexample: in the compiled demo listing the normally emitted
jump line at address 5 matches the spec line form (two spaces between the
opcode field and the operands), but the backpatched line at address 9 has
a single space there and does not match the spec form built from its own
address, opcode and operand list. -/
theorem backpatchSpacing_cex :
    compileProgram demoParsed compilerNew = .ok demoCompiled ∧
    demoCompiled.intermedia[5]? = some (specLineFormat 5 (opStr .JLT) "0,2(7)") ∧
    demoCompiled.intermedia[9]? = some (fmtRmAbs 9 .JEQ 0 3) ∧
    fmtRmAbs 9 .JEQ 0 3 ≠ specLineFormat 9 (opStr .JEQ) "0,3(7)" :=
  ⟨rfl, rfl, rfl, by decide⟩

/-- C9 amended: every emit_rm and emit_r0 line has exactly the spec form
(right-aligned address, colon, two spaces, right-aligned opcode, two
spaces, operand list), while every backpatched emit_rm_abs line has a
single space before its operand list and therefore never equals the spec
form for the same address, opcode and operands: the spacing differs
between normally emitted and backpatched lines. -/
theorem lineFormatSpacing :
    (∀ (addr : Nat) (op : OpCode) (t o b : Nat),
        fmtRm addr op t o b = specLineFormat addr (opStr op)
          (Nat.repr t ++ "," ++ Nat.repr o ++ "(" ++ Nat.repr b ++ ")")) ∧
    (∀ (addr : Nat) (op : OpCode) (t f g : Nat),
        fmtR0 addr op t f g = specLineFormat addr (opStr op)
          (Nat.repr t ++ "," ++ Nat.repr f ++ "," ++ Nat.repr g)) ∧
    (∀ (addr : Nat) (op : OpCode) (t o : Nat),
        fmtRmAbs addr op t o ≠ specLineFormat addr (opStr op)
          (Nat.repr t ++ "," ++ Nat.repr o ++ "(" ++ Nat.repr PC ++ ")")) := by
  refine ⟨?_, ?_, ?_⟩
  · intro addr op t o b
    simp [fmtRm, specLineFormat, String.append_assoc]
  · intro addr op t f g
    simp [fmtR0, specLineFormat, String.append_assoc]
  · intro addr op t o heq
    have hlen := congrArg String.length heq
    have l1 : (" " : String).length = 1 := rfl
    have l2 : ("  " : String).length = 2 := rfl
    simp [fmtRmAbs, specLineFormat, String.length_append, l1, l2] at hlen
    omega

/-- C9 witness: the concrete backpatched jump line differs from the spec
form at address 9. -/
theorem lineFormatSpacing_witness :
    fmtRmAbs 9 .JEQ 0 3 ≠ specLineFormat 9 (opStr .JEQ)
      (Nat.repr 0 ++ "," ++ Nat.repr 3 ++ "(" ++ Nat.repr PC ++ ")") :=
  lineFormatSpacing.2.2 9 .JEQ 0 3

/-- C10: compiling an Identifier whose name was never inserted in the
symbol table does not fail: look_up returns -1, and the generator emits an
LD of AC whose GP-relative offset is -1 cast to usize, i.e.
18446744073709551615; the same happens for the identifier inside a Write
statement, which then just appends its OUT line. -/
theorem undeclaredIdentCompiles (name : String) (s : Compiler)
    (hinv : inv s) (habs : lookUp s.symbolTable name = -1) :
    compileExpr (.identExpr name) s =
      .ok ⟨s.intermedia ++ [fmtRm s.intermedia.length .LD AC 18446744073709551615 GP],
           s.symbolTable, s.tmpOffset, s.intermedia.length + 1⟩ ∧
    compileStmt (.writeStmt name) s =
      .ok ⟨s.intermedia ++ [fmtRm s.intermedia.length .LD AC 18446744073709551615 GP,
            fmtR0 (s.intermedia.length + 1) .OUT AC 0 0],
           s.symbolTable, s.tmpOffset, s.intermedia.length + 2⟩ := by
  have hbig : i32ToUsize (lookUp s.symbolTable name) = 18446744073709551615 := by
    rw [habs]
    decide
  have h1 : compileExpr (.identExpr name) s =
      .ok ⟨s.intermedia ++ [fmtRm s.intermedia.length .LD AC 18446744073709551615 GP],
           s.symbolTable, s.tmpOffset, s.intermedia.length + 1⟩ := by
    rw [compileExpr, hbig, emitRm_ofInv _ _ _ _ _ hinv]
  refine ⟨h1, ?_⟩
  rw [compileStmt, h1]
  dsimp only
  have hS1 : inv (⟨s.intermedia ++ [fmtRm s.intermedia.length .LD AC 18446744073709551615 GP],
      s.symbolTable, s.tmpOffset, s.intermedia.length + 1⟩ : Compiler) := by
    simp [inv]
  rw [emitR0_ofInv _ _ _ _ _ hS1]
  simp

/-- C10 witness: the never-mentioned name x from a fresh compiler. -/
theorem undeclaredIdentCompiles_witness :
    compileExpr (.identExpr "x") compilerNew =
      .ok ⟨[] ++ [fmtRm 0 .LD AC 18446744073709551615 GP], [], 0, 1⟩ ∧
    compileStmt (.writeStmt "x") compilerNew =
      .ok ⟨[] ++ [fmtRm 0 .LD AC 18446744073709551615 GP, fmtR0 1 .OUT AC 0 0],
           [], 0, 2⟩ :=
  undeclaredIdentCompiles "x" compilerNew rfl rfl

end TinyCC
